import Mathlib

/-!
Verification development for the IAK reporting tool.

Shallow embedding of the core control logic of
`IAK_Report/combine_pi_with_appendices.py` and
`IAK_Report/generate_aandachtspunten_beheerder.py`:

* a PDF document is modelled as a `List α` of abstract pages;
* extracted page text and filenames are modelled as `List Char`;
* `PdfWriter.append` is list append, `PdfWriter.merge(pos, doc)` is
  insertion of a page block at a position;
* Python exceptions are modelled with `Option` / `Except`;
* the filesystem facts a function consumes (filenames, sizes,
  modification times) are passed in explicitly.
-/

/-! ### String helpers (Python `str` operations on `List Char`) -/

/-- Python `str.lower`, character-wise. -/
def toLowerL (s : List Char) : List Char := s.map Char.toLower

/-- Python `a.startswith(b)` test used to build the substring test. -/
def startsWith : List Char → List Char → Bool
  | [], _ => true
  | _ :: _, [] => false
  | a :: n, b :: h => a == b && startsWith n h

/-- Python `needle in hay` substring membership on strings. -/
def listContains (needle : List Char) : List Char → Bool
  | [] => needle.isEmpty
  | c :: t => startsWith needle (c :: t) || listContains needle t

/-- Python `hay.endswith(needle)`. -/
def endsWith (needle hay : List Char) : Bool :=
  startsWith needle.reverse hay.reverse

/-- Python `str.strip()` (default whitespace strip on both sides). -/
def pyStrip (s : List Char) : List Char :=
  ((s.dropWhile Char.isWhitespace).reverse.dropWhile Char.isWhitespace).reverse

/-- `os.path.splitext` restricted to a path without directory separators:
split at the last dot, unless every character in front of that dot is
itself a dot (leading-dot names such as `.jpg` have no extension). -/
def splitext (s : List Char) : List Char × List Char :=
  let extLen := (s.reverse.takeWhile (fun c => c ≠ '.')).length
  if extLen < s.length then
    let i := s.length - extLen - 1
    if (s.take i).any (fun c => c ≠ '.') then (s.take i, s.drop i) else (s, [])
  else (s, [])

/-- `os.path.basename` with `/` as the directory separator. -/
def basename (s : List Char) : List Char :=
  (s.reverse.takeWhile (fun c => c ≠ '/')).reverse

/-! ### `find_most_recent_file` (combine_pi_with_appendices.py)

The recursive directory walk is abstracted into the flat list of
`(filename, mtime)` pairs it visits; the function's filter and the
`max(..., key=os.path.getmtime)` selection are modelled as in the source.
Python's `max` keeps the first of several maximal elements. -/

/-- One file seen by `os.walk`: its (base) filename and modification time. -/
structure WalkFile where
  fname : List Char
  mtime : Nat
deriving DecidableEq, Repr

/-- The filename filter of `find_most_recent_file`: case-insensitive
substring match on `pat`, a mandatory case-insensitive `.pdf` suffix, and
an optional case-insensitive exclusion substring. -/
def matchesSearch (pat : List Char) (excl : Option (List Char)) (f : WalkFile) : Bool :=
  listContains (toLowerL pat) (toLowerL f.fname)
    && endsWith (".pdf".toList) (toLowerL f.fname)
    && (match excl with
        | some e => !(listContains (toLowerL e) (toLowerL f.fname))
        | none => true)

/-- Python `max(files, key=mtime)`: first maximal element wins on ties. -/
def maxByMtime (x : WalkFile) (xs : List WalkFile) : WalkFile :=
  xs.foldl (fun best y => if best.mtime < y.mtime then y else best) x

/-- `find_most_recent_file`, over the files visited by the walk. -/
def find_most_recent_file (files : List WalkFile) (pat : List Char)
    (excl : Option (List Char)) : Option WalkFile :=
  match files.filter (matchesSearch pat excl) with
  | [] => none
  | x :: xs => some (maxByMtime x xs)

/-! ### `find_last_page_with_text` (combine_pi_with_appendices.py)

A PDF is modelled by the list of its pages' extracted texts. The
source's `for page_num in range(len(reader.pages))` loop that overwrites
`last_page` on every case-insensitive hit is the `foldl` below. -/

/-- Case-insensitive substring hit of `search` on one page text. -/
def pageHit (search text : List Char) : Bool :=
  listContains (toLowerL search) (toLowerL text)

/-- `find_last_page_with_text`: last 0-based page index whose extracted
text contains `search` case-insensitively, else `none`. -/
def find_last_page_with_text (pages : List (List Char)) (search : List Char) :
    Option Nat :=
  pages.enum.foldl
    (fun last pg => if pageHit search pg.2 then some pg.1 else last) none

/-! ### `build_merged_pdf` (combine_pi_with_appendices.py)

An insertion point is `(Option Nat × List α)`: the resolved 0-based
anchor page (or `none`) and the appendix's pages.  `writer.merge(pos, doc)`
inserts `doc`'s pages at index `pos`. The Python
`list.sort(key=..., reverse=True)` is a stable descending sort, modelled
by a stable insertion sort. -/

/-- `writer.merge(pos, doc)`: insert the block `doc` at index `pos`. -/
def insertAt {α : Type} (w : List α) (pos : Nat) (doc : List α) : List α :=
  w.take pos ++ doc ++ w.drop pos

/-- Stable insertion into a list kept in descending key order. -/
def insertDesc {α : Type} (x : Nat × List α) :
    List (Nat × List α) → List (Nat × List α)
  | [] => [x]
  | y :: ys => if x.1 < y.1 then y :: insertDesc x ys else x :: y :: ys

/-- Stable descending sort by key, modelling
`insertions_with_pages.sort(key=lambda x: x[0], reverse=True)`
(Python's sort is stable, also with `reverse=True`). -/
def sortDesc {α : Type} : List (Nat × List α) → List (Nat × List α)
  | [] => []
  | x :: xs => insertDesc x (sortDesc xs)

/-- The `page is not None` comprehension of `build_merged_pdf`. -/
def insertions_with_pages {α : Type} (pts : List (Option Nat × List α)) :
    List (Nat × List α) :=
  pts.filterMap (fun p => p.1.map (fun n => (n, p.2)))

/-- The `page is None` comprehension of `build_merged_pdf`. -/
def insertions_without_pages {α : Type} (pts : List (Option Nat × List α)) :
    List (List α) :=
  (pts.filter (fun p => p.1.isNone)).map Prod.snd

/-- The inline-insertion loop of `build_merged_pdf`:
`for insert_page, ... in insertions_with_pages: writer.merge(insert_page + 1, ...)`. -/
def mergeFold {α : Type} (pi : List α) (L : List (Nat × List α)) : List α :=
  L.foldl (fun w x => insertAt w (x.1 + 1) x.2) pi

/-- `build_merged_pdf`: seed the writer with the primary report, insert
all anchored appendices from last anchor to first, then append the
appendices without an anchor in their declared order. -/
def build_merged_pdf {α : Type} (pi : List α) (pts : List (Option Nat × List α)) :
    List α :=
  (insertions_without_pages pts).foldl (fun w d => w ++ d)
    (mergeFold pi (sortDesc (insertions_with_pages pts)))

/-! ### `combine_pdfs` (combine_pi_with_appendices.py)

The function body is one `try` block: find the insertion points, build
the merged writer, then open the output path and write; any exception
makes it return `False`. The three effectful steps are passed in as
explicit step functions, the target location as a state `σ`. -/

/-- `combine_pdfs` control flow. `findIns` models `find_insertion_points`
(reading the primary PDF), `build` models `build_merged_pdf` over the
appendix files, `writeOut` models `open(output_path, "wb")` plus
`writer.write` and returns the success flag together with the possibly
changed state of the target location. A failure in either of the first
two steps is caught by the `except` before the output path is touched. -/
def combine_pdfs {Plan Doc E σ : Type} (findIns : Except E Plan)
    (build : Plan → Except E Doc) (writeOut : Doc → σ → Bool × σ)
    (fs : σ) : Bool × σ :=
  match findIns with
  | .error _ => (false, fs)
  | .ok plan =>
    match build plan with
    | .error _ => (false, fs)
    | .ok doc => writeOut doc fs

/-! ### Batch drivers (claim C9)

`combine_pi_with_appendices.main` wraps the whole loop body for one
object in `try/except`.  `generate_aandachtspunten_beheerder.main` calls
`get_voortgang_params` / `update_config_with_voortgang` (which can raise
`ValueError`) before entering its `try` block. -/

/-- Per-object summary lists of `combine_pi_with_appendices.main`. -/
structure BatchSummary (Obj : Type) where
  successful : List Obj
  skipped : List Obj
  failed : List Obj
  missing6 : List Obj
deriving DecidableEq, Repr

/-- One iteration of the combine driver's loop: the whole body is inside
`try`, so an exception from `process_object` lands the object in
`failed_objects` and the loop goes on. -/
def combineStep {Obj E : Type} (process : Obj → Except E (Bool × Bool))
    (s : BatchSummary Obj) (o : Obj) : BatchSummary Obj :=
  match process o with
  | .ok r =>
    let s1 := if r.2 then { s with missing6 := s.missing6 ++ [o] } else s
    if r.1 then { s1 with successful := s1.successful ++ [o] }
    else { s1 with skipped := s1.skipped ++ [o] }
  | .error _ => { s with failed := s.failed ++ [o] }

/-- The object loop of `combine_pi_with_appendices.main`. -/
def combine_main_loop {Obj E : Type} (process : Obj → Except E (Bool × Bool))
    (objs : List Obj) : BatchSummary Obj :=
  objs.foldl (combineStep process) ⟨[], [], [], []⟩

/-- The object loop of `generate_aandachtspunten_beheerder.main`.
`params` models the `get_voortgang_params` / `update_config_with_voortgang`
steps that run before the `try`; `body` models everything inside the
`try`. Returns the accumulated `failed_objects` list, or the uncaught
exception if a pre-`try` step raises. -/
def generate_main_loop {Obj P E : Type} (params : Obj → Except E P)
    (body : Obj → P → Except E Unit) : List Obj → Except E (List Obj)
  | [] => .ok []
  | o :: rest =>
    match params o with
    | .error e => .error e
    | .ok p =>
      let failedHere := match body o p with
        | .error _ => [o]
        | .ok _ => []
      match generate_main_loop params body rest with
      | .error e => .error e
      | .ok fl => .ok (failedHere ++ fl)

/-- Whether the generate driver marks object `o` as failed: its `try`
body raised (or its pre-`try` params step would have raised). -/
def objFails {Obj P E : Type} (params : Obj → Except E P)
    (body : Obj → P → Except E Unit) (o : Obj) : Bool :=
  match params o with
  | .ok p => match body o p with
    | .error _ => true
    | .ok _ => false
  | .error _ => true

/-! ### Table resizing (generate_aandachtspunten_beheerder.py)

A Word document's table list is modelled as `List τ`.  `copy_last_table`
deep-copies the last table and appends it; `remove_last_table` drops the
last table. The resize step of `process_aandachtspunten_beheerder` is
the `if len(ora_filtered) == 1 ... else: for _ in range(len - 2)` block. -/

/-- `copy_last_table`: append a deep copy of the last table. -/
def copy_last_table {τ : Type} (doc : List τ) : List τ :=
  doc ++ doc.getLast?.toList

/-- `remove_last_table`: drop the last table. -/
def remove_last_table {τ : Type} (doc : List τ) : List τ :=
  doc.dropLast

/-- `k` executions of the `copy_last_table` loop body. -/
def copyIter {τ : Type} (doc : List τ) : Nat → List τ
  | 0 => doc
  | k + 1 => copy_last_table (copyIter doc k)

/-- The table-resizing step of `process_aandachtspunten_beheerder` for
`n = len(ora_filtered)`: remove the last table when `n == 1`, otherwise
clone the last table `n - 2` times (Python `range(n - 2)` is empty for
`n <= 2`, as is Nat subtraction here). -/
def resize_tables {τ : Type} (doc : List τ) (n : Nat) : List τ :=
  if n = 1 then remove_last_table doc else copyIter doc (n - 2)

/-! ### Finding-field extraction (generate_aandachtspunten_beheerder.py)

The colon split of the `Bevinding` cell inside
`process_aandachtspunten_beheerder`; the missing-colon `ValueError` is
modelled by `none`. -/

/-- Finding-field extraction: `cell_content.partition(":")` with the
strip and trailing-two-characters label rules; `none` models the raised
`ValueError` when the cell has no colon. -/
def extract_finding_fields (s : List Char) : Option (List Char × List Char) :=
  if ':' ∈ s then
    let a := pyStrip (s.takeWhile (fun c => c ≠ ':'))
    let label := if 2 < a.length then a.drop (a.length - 2) else a
    let desc := pyStrip ((s.dropWhile (fun c => c ≠ ':')).drop 1)
    some (label, desc)
  else none

/-! ### `find_foto_path` (generate_aandachtspunten_beheerder.py)

A candidate image is a `(full filename, size in bytes)` pair. The token
is lower-cased, space-stripped and split into stem and extension; the
extension allow-list is the source's literal `['.png', '.jpg', 'jpeg']`.
Python's `min(key=os.path.getsize)` keeps the first minimal element. -/

/-- One candidate image file: full filename and byte size. -/
structure ImgFile where
  fullname : List Char
  size : Nat
deriving DecidableEq, Repr

/-- The errors `find_foto_path` can raise. -/
inductive FotoErr
  | badExt (ext : List Char)
  | notFound (token : List Char)
deriving DecidableEq, Repr

/-- Lower-cased, space-stripped photo token (`fotonummer.lower().replace(" ", "")`). -/
def normToken (t : List Char) : List Char :=
  (toLowerL t).filter (fun c => c ≠ ' ')

/-- Stem of the normalized token after `os.path.splitext`. -/
def tokenStem (t : List Char) : List Char := (splitext (normToken t)).1

/-- Extension of the normalized token after `os.path.splitext`. -/
def tokenExt (t : List Char) : List Char := (splitext (normToken t)).2

/-- The source's extension allow-list, verbatim: note the third entry
lacks the leading dot. -/
def allowedExts : List (List Char) :=
  [".png".toList, ".jpg".toList, "jpeg".toList]

/-- The matching test of the loop in `find_foto_path`:
`name.lower().endswith(fotonummer)` where `name` is the candidate's
basename without extension and `fotonummer` is the token stem. -/
def fotoMatches (t : List Char) (img : ImgFile) : Bool :=
  endsWith (tokenStem t) (toLowerL (splitext (basename img.fullname)).1)

/-- Python `min(matching, key=os.path.getsize)`: first minimal wins. -/
def minBySize (x : ImgFile) (xs : List ImgFile) : ImgFile :=
  xs.foldl (fun best y => if y.size < best.size then y else best) x

/-- `find_foto_path`: validate the token extension, collect the matching
candidates, fail when none match, return the single match or the
smallest one when several match. -/
def find_foto_path (t : List Char) (imgs : List ImgFile) :
    Except FotoErr ImgFile :=
  if tokenExt t ≠ [] ∧ tokenExt t ∉ allowedExts then
    .error (.badExt (tokenExt t))
  else
    match imgs.filter (fotoMatches t) with
    | [] => .error (.notFound (tokenStem t))
    | [x] => .ok x
    | x :: xs => .ok (minBySize x xs)

/-! ### Lemmas: substring tests against Mathlib's list relations -/

theorem startsWith_iff (n h : List Char) : startsWith n h = true ↔ n <+: h := by
  induction n generalizing h with
  | nil => simp [startsWith, List.nil_prefix]
  | cons a n ih =>
    cases h with
    | nil => simp [startsWith]
    | cons b t =>
      simp only [startsWith, Bool.and_eq_true, beq_iff_eq, ih]
      constructor
      · rintro ⟨rfl, u, rfl⟩
        exact ⟨u, rfl⟩
      · rintro ⟨u, hu⟩
        injection hu with h1 h2
        exact ⟨h1, u, h2⟩

theorem listContains_iff (n h : List Char) : listContains n h = true ↔ n <:+: h := by
  induction h with
  | nil =>
    simp only [listContains, List.isEmpty_iff]
    constructor
    · rintro rfl; exact List.infix_refl _
    · intro hi; exact List.eq_nil_of_infix_nil hi
  | cons c t ih =>
    simp only [listContains, Bool.or_eq_true, startsWith_iff, ih]
    constructor
    · rintro (hp | hi)
      · exact hp.isInfix
      · exact hi.trans (List.infix_cons (List.infix_refl t))
    · rintro ⟨s, u, hsu⟩
      cases s with
      | nil => exact Or.inl ⟨u, by simpa using hsu⟩
      | cons x s =>
        injection hsu with h1 h2
        exact Or.inr ⟨s, u, h2⟩

theorem endsWith_iff (n h : List Char) : endsWith n h = true ↔ n <:+ h := by
  unfold endsWith
  rw [startsWith_iff]
  constructor
  · rintro ⟨u, hu⟩
    refine ⟨u.reverse, ?_⟩
    have := congrArg List.reverse hu
    simpa using this
  · rintro ⟨s, rfl⟩
    exact ⟨s.reverse, by simp⟩

/-! ### Lemmas: first-minimal / first-maximal selection folds -/

theorem minBySize_mem (x : ImgFile) (xs : List ImgFile) :
    minBySize x xs ∈ x :: xs := by
  induction xs generalizing x with
  | nil => simp [minBySize]
  | cons y ys ih =>
    simp only [minBySize, List.foldl_cons]
    by_cases hc : y.size < x.size
    · simp only [hc, if_pos]
      have := ih y
      simp only [minBySize] at this
      rcases List.mem_cons.mp this with h | h
      · simp [h]
      · simp [h]
    · simp only [hc, if_neg, not_false_eq_true]
      have := ih x
      simp only [minBySize] at this
      rcases List.mem_cons.mp this with h | h
      · simp [h]
      · simp [h]

theorem minBySize_le (x : ImgFile) (xs : List ImgFile) :
    ∀ o ∈ x :: xs, (minBySize x xs).size ≤ o.size := by
  induction xs generalizing x with
  | nil =>
    intro o ho
    simp at ho
    simp [minBySize, ho]
  | cons y ys ih =>
    intro o ho
    simp only [minBySize, List.foldl_cons]
    by_cases hc : y.size < x.size
    · simp only [hc, if_pos]
      have hall := ih y
      simp only [minBySize] at hall
      rcases List.mem_cons.mp ho with rfl | ho2
      · exact le_trans (hall y (by simp)) (le_of_lt hc)
      · rcases List.mem_cons.mp ho2 with rfl | ho3
        · exact hall o (by simp)
        · exact hall o (by simp [ho3])
    · simp only [hc, if_neg, not_false_eq_true]
      have hall := ih x
      simp only [minBySize] at hall
      rcases List.mem_cons.mp ho with rfl | ho2
      · exact hall o (by simp)
      · rcases List.mem_cons.mp ho2 with rfl | ho3
        · exact le_trans (hall x (by simp)) (le_of_not_lt hc)
        · exact hall o (by simp [ho3])

theorem maxByMtime_mem (x : WalkFile) (xs : List WalkFile) :
    maxByMtime x xs ∈ x :: xs := by
  induction xs generalizing x with
  | nil => simp [maxByMtime]
  | cons y ys ih =>
    simp only [maxByMtime, List.foldl_cons]
    by_cases hc : x.mtime < y.mtime
    · simp only [hc, if_pos]
      have := ih y
      simp only [maxByMtime] at this
      rcases List.mem_cons.mp this with h | h
      · simp [h]
      · simp [h]
    · simp only [hc, if_neg, not_false_eq_true]
      have := ih x
      simp only [maxByMtime] at this
      rcases List.mem_cons.mp this with h | h
      · simp [h]
      · simp [h]

/-! ### Lemmas: `find_last_page_with_text` as "last hit index" -/

/-- Recursive description of the loop of `find_last_page_with_text`:
the last hit index of the pages `l`, whose first page has index `k`. -/
def lastHitFrom (search : List Char) : List (List Char) → Nat → Option Nat
  | [], _ => none
  | p :: rest, k =>
    match lastHitFrom search rest (k + 1) with
    | some j => some j
    | none => if pageHit search p then some k else none

theorem foldl_enumFrom_lastHit (s : List Char) (l : List (List Char)) :
    ∀ (k : Nat) (acc : Option Nat),
      (List.enumFrom k l).foldl
          (fun last pg => if pageHit s pg.2 then some pg.1 else last) acc
        = match lastHitFrom s l k with
          | some j => some j
          | none => acc := by
  induction l with
  | nil => intro k acc; simp [lastHitFrom]
  | cons p rest ih =>
    intro k acc
    simp only [List.enumFrom, List.foldl_cons]
    rw [ih (k + 1)]
    cases h : lastHitFrom s rest (k + 1) with
    | some j => simp [lastHitFrom, h]
    | none =>
      by_cases hp : pageHit s p
      · simp [lastHitFrom, h, hp]
      · simp [lastHitFrom, h, hp]

theorem find_last_eq_lastHitFrom (pages : List (List Char)) (s : List Char) :
    find_last_page_with_text pages s = lastHitFrom s pages 0 := by
  unfold find_last_page_with_text
  rw [List.enum, foldl_enumFrom_lastHit]
  cases lastHitFrom s pages 0 <;> rfl

theorem lastHitFrom_eq_none_iff (s : List Char) (l : List (List Char)) (k : Nat) :
    lastHitFrom s l k = none ↔ ∀ t ∈ l, pageHit s t = false := by
  induction l generalizing k with
  | nil => simp [lastHitFrom]
  | cons p rest ih =>
    simp only [lastHitFrom]
    cases h : lastHitFrom s rest (k + 1) with
    | some j =>
      simp only []
      constructor
      · intro hc; exact absurd hc (by simp)
      · intro hall
        have : lastHitFrom s rest (k + 1) = none :=
          (ih (k + 1)).mpr (fun t ht => hall t (by simp [ht]))
        rw [h] at this; exact absurd this (by simp)
    | none =>
      have hrest := (ih (k + 1)).mp h
      by_cases hp : pageHit s p
      · simp only [hp, if_pos]
        constructor
        · intro hc; exact absurd hc (by simp)
        · intro hall
          have := hall p (by simp)
          rw [hp] at this; exact absurd this (by simp)
      · simp only [hp, if_neg, not_false_eq_true]
        constructor
        · intro _ t ht
          rcases List.mem_cons.mp ht with rfl | ht2
          · exact Bool.eq_false_iff.mpr hp
          · exact hrest t ht2
        · intro _; rfl

theorem lastHitFrom_eq_some (s : List Char) (l : List (List Char)) (k j : Nat) :
    lastHitFrom s l k = some j →
      ∃ i, i < l.length ∧ j = k + i ∧ pageHit s (l.getD i []) = true ∧
        ∀ i2, i2 < l.length → pageHit s (l.getD i2 []) = true → i2 ≤ i := by
  induction l generalizing k j with
  | nil => intro h; simp [lastHitFrom] at h
  | cons p rest ih =>
    intro h
    simp only [lastHitFrom] at h
    cases hr : lastHitFrom s rest (k + 1) with
    | some j2 =>
      rw [hr] at h
      simp only [Option.some.injEq] at h
      subst h
      obtain ⟨i, hi, hji, hhit, hmax⟩ := ih (k + 1) j2 hr
      refine ⟨i + 1, by simpa using hi, by omega, by simpa using hhit, ?_⟩
      intro i2 hi2 hhit2
      cases i2 with
      | zero => omega
      | succ i3 =>
        have := hmax i3 (by simpa using hi2) (by simpa using hhit2)
        omega
    | none =>
      rw [hr] at h
      by_cases hp : pageHit s p
      · rw [if_pos hp] at h
        simp only [Option.some.injEq] at h
        subst h
        refine ⟨0, by simp, by omega, by simpa using hp, ?_⟩
        intro i2 hi2 hhit2
        cases i2 with
        | zero => exact Nat.le_refl 0
        | succ i3 =>
          have hall := (lastHitFrom_eq_none_iff s rest (k + 1)).mp hr
          have : pageHit s (rest.getD i3 []) = true := by simpa using hhit2
          have hmem : rest.getD i3 [] ∈ rest := by
            have hlt : i3 < rest.length := by simpa using hi2
            simp [List.getD_eq_getElem?_getD, List.getElem?_eq_getElem hlt]
          have := hall _ hmem
          simp_all
      · rw [if_neg hp] at h
        exact absurd h (by simp)

/-! ### Lemmas: `insertAt`, `mergeFold` and the stable descending sort -/

theorem insertAt_length {α : Type} (w : List α) (pos : Nat) (doc : List α) :
    (insertAt w pos doc).length = w.length + doc.length := by
  simp [insertAt]
  omega

theorem insertAt_perm {α : Type} (w : List α) (pos : Nat) (doc : List α) :
    (insertAt w pos doc).Perm (w ++ doc) := by
  unfold insertAt
  have h1 : w.take pos ++ doc ++ w.drop pos = w.take pos ++ (doc ++ w.drop pos) := by
    simp [List.append_assoc]
  rw [h1]
  have h2 : (w.take pos ++ (doc ++ w.drop pos)).Perm (w.take pos ++ (w.drop pos ++ doc)) :=
    List.Perm.append_left _ List.perm_append_comm
  have h3 : w.take pos ++ (w.drop pos ++ doc) = w ++ doc := by
    rw [← List.append_assoc, List.take_append_drop]
  exact h3 ▸ h2

theorem mergeFold_perm {α : Type} (L : List (Nat × List α)) :
    ∀ pi : List α, (mergeFold pi L).Perm (pi ++ (L.map Prod.snd).flatten) := by
  induction L with
  | nil => intro pi; simp [mergeFold]
  | cons x L ih =>
    intro pi
    have step : mergeFold pi (x :: L) = mergeFold (insertAt pi (x.1 + 1) x.2) L := rfl
    rw [step]
    refine (ih _).trans ?_
    refine (List.Perm.append_right _ (insertAt_perm pi (x.1 + 1) x.2)).trans ?_
    have : (pi ++ x.2) ++ (L.map Prod.snd).flatten
        = pi ++ ((x :: L).map Prod.snd).flatten := by
      simp [List.append_assoc]
    rw [this]

theorem mergeFold_length {α : Type} (L : List (Nat × List α)) (pi : List α) :
    (mergeFold pi L).length = pi.length + (L.map (fun x => x.2.length)).sum := by
  have h := (mergeFold_perm L pi).length_eq
  simp only [List.length_append, List.length_flatten, List.map_map] at h
  simpa [Function.comp] using h

theorem mergeFold_sublist {α : Type} (L : List (Nat × List α)) :
    ∀ pi : List α, pi.Sublist (mergeFold pi L) := by
  induction L with
  | nil => intro pi; simp [mergeFold]
  | cons x L ih =>
    intro pi
    have step : mergeFold pi (x :: L) = mergeFold (insertAt pi (x.1 + 1) x.2) L := rfl
    rw [step]
    refine List.Sublist.trans ?_ (ih _)
    unfold insertAt
    conv_lhs => rw [← List.take_append_drop (x.1 + 1) pi]
    rw [List.append_assoc]
    exact (List.Sublist.refl _).append (List.sublist_append_right _ _)

theorem mergeFold_append_right {α : Type} (L : List (Nat × List α)) :
    ∀ (A B : List α), (∀ y ∈ L, y.1 + 1 ≤ A.length) →
      mergeFold (A ++ B) L = mergeFold A L ++ B := by
  induction L with
  | nil => intro A B _; simp [mergeFold]
  | cons y L ih =>
    intro A B hbd
    have hy : y.1 + 1 ≤ A.length := hbd y (by simp)
    have hstep : insertAt (A ++ B) (y.1 + 1) y.2 = insertAt A (y.1 + 1) y.2 ++ B := by
      unfold insertAt
      rw [List.take_append_eq_append_take, List.drop_append_eq_append_drop]
      have h0 : y.1 + 1 - A.length = 0 := by omega
      simp [h0, List.append_assoc]
    have step : mergeFold (A ++ B) (y :: L) = mergeFold (insertAt (A ++ B) (y.1 + 1) y.2) L := rfl
    rw [step, hstep, ih (insertAt A (y.1 + 1) y.2) B]
    · rfl
    · intro z hz
      rw [insertAt_length]
      have := hbd z (by simp [hz])
      omega

theorem mergeFold_cons_split {α : Type} (pi : List α) (n : Nat) (d : List α)
    (rest : List (Nat × List α)) (hle : ∀ y ∈ rest, y.1 ≤ n) (hn : n < pi.length) :
    mergeFold pi ((n, d) :: rest)
      = mergeFold (pi.take (n + 1)) rest ++ d ++ pi.drop (n + 1) := by
  have htlen : (pi.take (n + 1)).length = n + 1 := by
    rw [List.length_take]; omega
  have step : mergeFold pi ((n, d) :: rest) = mergeFold (insertAt pi (n + 1) d) rest := rfl
  rw [step]
  have h1 : insertAt pi (n + 1) d = (pi.take (n + 1) ++ d) ++ pi.drop (n + 1) := by
    simp [insertAt, List.append_assoc]
  rw [h1]
  rw [mergeFold_append_right rest (pi.take (n + 1) ++ d) (pi.drop (n + 1))
    (by intro y hy; rw [List.length_append, htlen]
        have := hle y hy; omega)]
  rw [mergeFold_append_right rest (pi.take (n + 1)) d
    (by intro y hy; rw [htlen]; exact Nat.succ_le_succ (hle y hy))]

theorem insertAt_getLast? {α : Type} (w : List α) (pos : Nat) (doc : List α)
    (h : pos < w.length) : (insertAt w pos doc).getLast? = w.getLast? := by
  have hd : w.drop pos ≠ [] := by
    intro hc
    have := congrArg List.length hc
    simp [List.length_drop] at this
    omega
  unfold insertAt
  have h1 : (w.take pos ++ (doc ++ w.drop pos)).getLast? = (doc ++ w.drop pos).getLast? :=
    List.getLast?_append_of_ne_nil _ (by simp [hd])
  have h2 : (doc ++ w.drop pos).getLast? = (w.drop pos).getLast? :=
    List.getLast?_append_of_ne_nil _ hd
  have h3 : w.getLast? = (w.drop pos).getLast? := by
    conv_lhs => rw [← List.take_append_drop pos w]
    exact List.getLast?_append_of_ne_nil _ hd
  rw [List.append_assoc, h1, h2, h3]

theorem mergeFold_getLast? {α : Type} (L : List (Nat × List α)) :
    ∀ w : List α, (∀ y ∈ L, y.1 + 1 < w.length) →
      (mergeFold w L).getLast? = w.getLast? := by
  induction L with
  | nil => intro w _; rfl
  | cons y L ih =>
    intro w hbd
    have step : mergeFold w (y :: L) = mergeFold (insertAt w (y.1 + 1) y.2) L := rfl
    rw [step, ih _ ?_, insertAt_getLast? _ _ _ (hbd y (by simp))]
    intro z hz
    rw [insertAt_length]
    have := hbd z (by simp [hz])
    omega

theorem take_succ_getLast? {α : Type} (pi : List α) (n : Nat) (hn : n < pi.length) :
    (pi.take (n + 1)).getLast? = pi[n]? := by
  have htlen : (pi.take (n + 1)).length = n + 1 := by
    rw [List.length_take]; omega
  rw [List.getLast?_eq_getElem?, htlen]
  simp only [Nat.add_sub_cancel]
  rw [List.getElem?_take_of_lt (by omega)]

theorem insertDesc_perm {α : Type} (x : Nat × List α) (l : List (Nat × List α)) :
    (insertDesc x l).Perm (x :: l) := by
  induction l with
  | nil => simp [insertDesc]
  | cons y ys ih =>
    unfold insertDesc
    by_cases hc : x.1 < y.1
    · rw [if_pos hc]
      exact (List.Perm.cons y ih).trans (List.Perm.swap x y ys)
    · rw [if_neg hc]

theorem sortDesc_perm {α : Type} (l : List (Nat × List α)) :
    (sortDesc l).Perm l := by
  induction l with
  | nil => simp [sortDesc]
  | cons x xs ih =>
    exact (insertDesc_perm x (sortDesc xs)).trans (List.Perm.cons x ih)

theorem insertDesc_pairwise_ge {α : Type} (x : Nat × List α)
    (l : List (Nat × List α)) (hl : l.Pairwise (fun a b => b.1 ≤ a.1)) :
    (insertDesc x l).Pairwise (fun a b => b.1 ≤ a.1) := by
  induction l with
  | nil => simp [insertDesc]
  | cons y ys ih =>
    rw [List.pairwise_cons] at hl
    obtain ⟨hy, hys⟩ := hl
    unfold insertDesc
    by_cases hc : x.1 < y.1
    · rw [if_pos hc]
      rw [List.pairwise_cons]
      refine ⟨?_, ih hys⟩
      intro z hz
      have hz2 := (insertDesc_perm x ys).mem_iff.mp hz
      rcases List.mem_cons.mp hz2 with rfl | hz3
      · exact Nat.le_of_lt hc
      · exact hy z hz3
    · rw [if_neg hc]
      rw [List.pairwise_cons]
      refine ⟨?_, List.pairwise_cons.mpr ⟨hy, hys⟩⟩
      intro z hz
      rcases List.mem_cons.mp hz with rfl | hz2
      · omega
      · have := hy z hz2
        omega

theorem sortDesc_pairwise_ge {α : Type} (l : List (Nat × List α)) :
    (sortDesc l).Pairwise (fun a b => b.1 ≤ a.1) := by
  induction l with
  | nil => simp [sortDesc]
  | cons x xs ih => exact insertDesc_pairwise_ge x (sortDesc xs) ih

/-! ### Lemmas: position of every anchored appendix inside the merge -/

theorem mergeFold_gap {α : Type} (L : List (Nat × List α)) :
    ∀ pi : List α,
      L.Pairwise (fun a b => b.1 ≤ a.1) →
      L.Pairwise (fun a b => a.1 ≠ b.1) →
      (∀ y ∈ L, y.1 < pi.length) →
      ∀ n d, (n, d) ∈ L →
        ∃ A B, mergeFold pi L = A ++ d ++ B ∧ (pi.take (n + 1)).Sublist A ∧
          (pi.drop (n + 1)).Sublist B ∧ A.getLast? = pi[n]? := by
  induction L with
  | nil => intro pi _ _ _ n d hmem; simp at hmem
  | cons y rest ih =>
    obtain ⟨m, e⟩ := y
    intro pi hdesc hne hbd n d hmem
    rw [List.pairwise_cons] at hdesc hne
    obtain ⟨hy_le, hdesc2⟩ := hdesc
    obtain ⟨hy_ne, hne2⟩ := hne
    have hm : m < pi.length := hbd (m, e) (by simp)
    have htlen : (pi.take (m + 1)).length = m + 1 := by
      rw [List.length_take]; omega
    have hsplit := mergeFold_cons_split pi m e rest
      (fun z hz => hy_le z hz) hm
    rcases List.mem_cons.mp hmem with heq | hmem2
    · have hn : n = m := by
        have := congrArg Prod.fst heq
        simpa using this
      have hde : d = e := by
        have := congrArg Prod.snd heq
        simpa using this
      subst hn; subst hde
      refine ⟨mergeFold (pi.take (n + 1)) rest, pi.drop (n + 1), hsplit,
        mergeFold_sublist rest _, List.Sublist.refl _, ?_⟩
      rw [mergeFold_getLast? rest (pi.take (n + 1)) ?_]
      · exact take_succ_getLast? pi n hm
      · intro z hz
        have h1 := hy_le z hz
        have h2 := hy_ne z hz
        rw [htlen]
        omega
    · have hnm : n ≤ m := hy_le (n, d) hmem2
      have hbd2 : ∀ z ∈ rest, z.1 < (pi.take (m + 1)).length := by
        intro z hz
        rw [htlen]
        have := hy_le z hz
        omega
      obtain ⟨A, B, hAB, hA, hB, hlast⟩ :=
        ih (pi.take (m + 1)) hdesc2 hne2 hbd2 n d hmem2
      have htake : (pi.take (m + 1)).take (n + 1) = pi.take (n + 1) := by
        rw [List.take_take]
        congr 1
        omega
      have hdropsplit : pi.drop (n + 1)
          = (pi.take (m + 1)).drop (n + 1) ++ pi.drop (m + 1) := by
        conv_lhs => rw [← List.take_append_drop (m + 1) pi]
        rw [List.drop_append_eq_append_drop]
        have h0 : n + 1 - (pi.take (m + 1)).length = 0 := by
          rw [htlen]; omega
        rw [h0]
        simp
      refine ⟨A, B ++ (e ++ pi.drop (m + 1)), ?_, ?_, ?_, ?_⟩
      · rw [hsplit, hAB]
        simp [List.append_assoc]
      · rw [← htake]; exact hA
      · rw [hdropsplit]
        exact hB.append (List.sublist_append_right _ _)
      · rw [hlast, List.getElem?_take_of_lt (by omega)]

/-! ### Lemmas: assembling `build_merged_pdf` -/

theorem foldl_append_eq_flatten {α : Type} (L : List (List α)) :
    ∀ init : List α, L.foldl (fun w d => w ++ d) init = init ++ L.flatten := by
  induction L with
  | nil => intro init; simp
  | cons d L ih =>
    intro init
    simp only [List.foldl_cons, ih, List.flatten_cons, List.append_assoc]

theorem build_merged_pdf_eq {α : Type} (pi : List α)
    (pts : List (Option Nat × List α)) :
    build_merged_pdf pi pts
      = mergeFold pi (sortDesc (insertions_with_pages pts))
          ++ (insertions_without_pages pts).flatten := by
  unfold build_merged_pdf
  rw [foldl_append_eq_flatten]

theorem sum_length_partition {α : Type} (pts : List (Option Nat × List α)) :
    ((insertions_with_pages pts).map (fun x => x.2.length)).sum
      + ((insertions_without_pages pts).map List.length).sum
    = (pts.map (fun p => p.2.length)).sum := by
  induction pts with
  | nil => simp [insertions_with_pages, insertions_without_pages]
  | cons p pts ih =>
    cases hp : p.1 with
    | none =>
      simp [insertions_with_pages, insertions_without_pages, hp] at ih ⊢
      omega
    | some n =>
      simp [insertions_with_pages, insertions_without_pages, hp] at ih ⊢
      omega

theorem perm_shuffle {α : Type} (A b C : List α) :
    (A ++ (b ++ C)).Perm (b ++ (A ++ C)) := by
  rw [← List.append_assoc, ← List.append_assoc]
  exact List.Perm.append_right C List.perm_append_comm

theorem flatten_partition_perm {α : Type} (pts : List (Option Nat × List α)) :
    (((insertions_with_pages pts).map Prod.snd).flatten
        ++ (insertions_without_pages pts).flatten).Perm
      ((pts.map Prod.snd).flatten) := by
  induction pts with
  | nil => simp [insertions_with_pages, insertions_without_pages]
  | cons p pts ih =>
    cases hp : p.1 with
    | some n =>
      simp only [insertions_with_pages, insertions_without_pages,
        List.filterMap_cons, List.filter_cons, hp, Option.map_some',
        Option.isNone_some, List.map_cons, List.flatten_cons, List.append_assoc,
        Bool.false_eq_true, if_false] at ih ⊢
      exact List.Perm.append_left p.2 ih
    | none =>
      simp only [insertions_with_pages, insertions_without_pages,
        List.filterMap_cons, List.filter_cons, hp, Option.map_none',
        Option.isNone_none, List.map_cons, List.flatten_cons, List.append_assoc,
        if_true] at ih ⊢
      exact (perm_shuffle _ _ _).trans (List.Perm.append_left p.2 ih)

/-! ### Lemmas: finding-field split positions via `indexOf` -/

theorem takeWhile_ne_eq_take (s : List Char) (a : Char) :
    s.takeWhile (fun c => c ≠ a) = s.take (List.indexOf a s) := by
  induction s with
  | nil => simp
  | cons b t ih =>
    by_cases hb : b = a
    · subst hb
      simp [List.takeWhile_cons, List.indexOf_cons_self]
    · rw [List.indexOf_cons_ne _ (fun hc => hb hc)]
      simp [List.takeWhile_cons, hb]
      simpa using ih

theorem dropWhile_ne_eq_drop (s : List Char) (a : Char) :
    s.dropWhile (fun c => c ≠ a) = s.drop (List.indexOf a s) := by
  induction s with
  | nil => simp
  | cons b t ih =>
    by_cases hb : b = a
    · subst hb
      simp [List.dropWhile_cons, List.indexOf_cons_self]
    · rw [List.indexOf_cons_ne _ (fun hc => hb hc)]
      simp [List.dropWhile_cons, hb]
      simpa using ih

/-! ### Lemmas: table cloning -/

theorem copyIter_eq_append_replicate {τ : Type} (k : Nat) (doc : List τ) (x : τ)
    (hx : doc.getLast? = some x) :
    copyIter doc k = doc ++ List.replicate k x := by
  induction k with
  | zero => simp [copyIter]
  | succ k ih =>
    have hlast : (doc ++ List.replicate k x).getLast? = some x := by
      cases k with
      | zero => simpa using hx
      | succ k2 =>
        rw [List.getLast?_append_of_ne_nil _ (by simp)]
        rw [List.replicate_succ']
        exact List.getLast?_concat _
    show copy_last_table (copyIter doc k) = _
    rw [ih]
    unfold copy_last_table
    rw [hlast]
    simp [List.replicate_succ', List.append_assoc]

/-! ### Lemmas: batch drivers -/

theorem combineStep_lengths {Obj E : Type} (process : Obj → Except E (Bool × Bool))
    (s : BatchSummary Obj) (o : Obj) :
    (combineStep process s o).successful.length + (combineStep process s o).skipped.length
      + (combineStep process s o).failed.length
    = s.successful.length + s.skipped.length + s.failed.length + 1 := by
  unfold combineStep
  cases hp : process o with
  | error e => simp; omega
  | ok r =>
    by_cases h2 : r.2 <;> by_cases h1 : r.1 <;> simp [h2, h1] <;> omega

theorem combine_foldl_lengths {Obj E : Type} (process : Obj → Except E (Bool × Bool))
    (objs : List Obj) :
    ∀ s : BatchSummary Obj,
      (objs.foldl (combineStep process) s).successful.length
        + (objs.foldl (combineStep process) s).skipped.length
        + (objs.foldl (combineStep process) s).failed.length
      = s.successful.length + s.skipped.length + s.failed.length + objs.length := by
  induction objs with
  | nil => intro s; simp
  | cons o rest ih =>
    intro s
    rw [List.foldl_cons, ih]
    have := combineStep_lengths process s o
    simp only [List.length_cons]
    omega

theorem combine_foldl_subset {Obj E : Type} (process : Obj → Except E (Bool × Bool))
    (objs : List Obj) :
    ∀ s : BatchSummary Obj,
      (∀ o2, o2 ∈ s.successful → o2 ∈ (objs.foldl (combineStep process) s).successful)
      ∧ (∀ o2, o2 ∈ s.skipped → o2 ∈ (objs.foldl (combineStep process) s).skipped)
      ∧ (∀ o2, o2 ∈ s.failed → o2 ∈ (objs.foldl (combineStep process) s).failed) := by
  induction objs with
  | nil => intro s; exact ⟨fun _ h => h, fun _ h => h, fun _ h => h⟩
  | cons o rest ih =>
    intro s
    have hstep : (∀ o2, o2 ∈ s.successful → o2 ∈ (combineStep process s o).successful)
        ∧ (∀ o2, o2 ∈ s.skipped → o2 ∈ (combineStep process s o).skipped)
        ∧ (∀ o2, o2 ∈ s.failed → o2 ∈ (combineStep process s o).failed) := by
      unfold combineStep
      cases hp : process o with
      | error e =>
        exact ⟨fun _ h => h, fun _ h => h, fun _ h => by simp [h]⟩
      | ok r =>
        by_cases h2 : r.2 <;> by_cases h1 : r.1 <;>
          exact ⟨fun _ h => by simp [h1, h2, h], fun _ h => by simp [h1, h2, h],
            fun _ h => by simp [h1, h2, h]⟩
    refine ⟨?_, ?_, ?_⟩
    · intro o2 h
      exact (ih (combineStep process s o)).1 o2 (hstep.1 o2 h)
    · intro o2 h
      exact (ih (combineStep process s o)).2.1 o2 (hstep.2.1 o2 h)
    · intro o2 h
      exact (ih (combineStep process s o)).2.2 o2 (hstep.2.2 o2 h)

theorem combine_foldl_mem {Obj E : Type} (process : Obj → Except E (Bool × Bool))
    (objs : List Obj) :
    ∀ s : BatchSummary Obj, ∀ o ∈ objs,
      o ∈ (objs.foldl (combineStep process) s).successful
      ∨ o ∈ (objs.foldl (combineStep process) s).skipped
      ∨ o ∈ (objs.foldl (combineStep process) s).failed := by
  induction objs with
  | nil => intro s o ho; simp at ho
  | cons o1 rest ih =>
    intro s o ho
    rw [List.foldl_cons]
    rcases List.mem_cons.mp ho with rfl | ho2
    · have hin : o ∈ (combineStep process s o).successful
          ∨ o ∈ (combineStep process s o).skipped
          ∨ o ∈ (combineStep process s o).failed := by
        unfold combineStep
        cases hp : process o with
        | error e => right; right; simp
        | ok r =>
          by_cases h2 : r.2 <;> by_cases h1 : r.1 <;> simp [h1, h2]
      rcases hin with h | h | h
      · exact Or.inl ((combine_foldl_subset process rest _).1 o h)
      · exact Or.inr (Or.inl ((combine_foldl_subset process rest _).2.1 o h))
      · exact Or.inr (Or.inr ((combine_foldl_subset process rest _).2.2 o h))
    · exact ih (combineStep process s o1) o ho2

theorem generate_loop_all_ok {Obj P E : Type} (params : Obj → Except E P)
    (body : Obj → P → Except E Unit) (objs : List Obj)
    (hall : ∀ o ∈ objs, (params o).isOk = true) :
    generate_main_loop params body objs
      = .ok (objs.filter (objFails params body)) := by
  induction objs with
  | nil => simp [generate_main_loop]
  | cons o rest ih =>
    have ho := hall o (by simp)
    cases hp : params o with
    | error e => rw [hp] at ho; simp [Except.isOk, Except.toBool] at ho
    | ok p =>
      unfold generate_main_loop
      rw [hp, ih (fun o2 ho2 => hall o2 (by simp [ho2]))]
      cases hb : body o p <;> simp [List.filter_cons, objFails, hp, hb]

/-! ### Claim theorems -/

/-- C4: any failure while finding the insertion points or building the
merged writer (the merge proper) makes `combine_pdfs` return `False` and
leaves the target output location unchanged; the output path is touched
only after both merge steps have succeeded, so the write step is reached
exactly when the full merge plan has been executed. -/
theorem C4_combine_pdfs_failure_semantics {Plan Doc E σ : Type}
    (findIns : Except E Plan) (build : Plan → Except E Doc)
    (writeOut : Doc → σ → Bool × σ) (fs : σ) :
    (∀ e, findIns = .error e → combine_pdfs findIns build writeOut fs = (false, fs))
    ∧ (∀ plan e, findIns = .ok plan → build plan = .error e →
        combine_pdfs findIns build writeOut fs = (false, fs))
    ∧ ((combine_pdfs findIns build writeOut fs).2 ≠ fs →
        ∃ plan doc, findIns = .ok plan ∧ build plan = .ok doc ∧
          combine_pdfs findIns build writeOut fs = writeOut doc fs) := by
  refine ⟨?_, ?_, ?_⟩
  · intro e he
    simp [combine_pdfs, he]
  · intro plan e hp hb
    simp [combine_pdfs, hp, hb]
  · intro hch
    cases hf : findIns with
    | error e => simp [combine_pdfs, hf] at hch
    | ok plan =>
      cases hb : build plan with
      | error e => simp [combine_pdfs, hf, hb] at hch
      | ok doc =>
        exact ⟨plan, doc, rfl, hb, by simp [combine_pdfs, hb]⟩

theorem C4_witness :
    combine_pdfs (Except.error () : Except Unit Unit)
      (fun _ => (Except.ok () : Except Unit Unit))
      (fun _ fs => (true, fs + 1)) 0 = (false, 0) :=
  (C4_combine_pdfs_failure_semantics (Except.error ())
    (fun _ => Except.ok ()) (fun _ fs => (true, fs + 1)) 0).1 () rfl

/-- C5: on a template with exactly 2 table slots and `n >= 1` data rows,
the resize step leaves exactly `n` tables: for `n = 1` it removes the
last table keeping the single pre-existing one, for `n >= 2` it appends
`n - 2` copies of the last table, and the resulting slots are distinct
list positions that are independently editable. -/
theorem C5_resize_tables_count {τ : Type} (doc : List τ) (n : Nat)
    (h2 : doc.length = 2) (h1 : 1 ≤ n) :
    (resize_tables doc n).length = n
    ∧ (n = 1 → resize_tables doc n = doc.take 1)
    ∧ (2 ≤ n → ∃ c, doc.getLast? = some c ∧
        resize_tables doc n = doc ++ List.replicate (n - 2) c)
    ∧ (∀ i j : Nat, ∀ t : τ, i ≠ j →
        ((resize_tables doc n).set i t)[j]? = (resize_tables doc n)[j]?) := by
  obtain ⟨a, b, rfl⟩ := List.length_eq_two.mp h2
  have hlast : ([a, b] : List τ).getLast? = some b := rfl
  refine ⟨?_, ?_, ?_, ?_⟩
  · by_cases hn : n = 1
    · subst hn
      simp [resize_tables, remove_last_table]
    · have hge : 2 ≤ n := by omega
      rw [resize_tables, if_neg hn,
        copyIter_eq_append_replicate (n - 2) [a, b] b hlast]
      simp
      omega
  · intro hn
    subst hn
    simp [resize_tables, remove_last_table]
  · intro hge
    have hn : n ≠ 1 := by omega
    refine ⟨b, hlast, ?_⟩
    rw [resize_tables, if_neg hn,
      copyIter_eq_append_replicate (n - 2) [a, b] b hlast]
  · intro i j t hij
    exact List.getElem?_set_ne hij

theorem C5_witness : (resize_tables [0, 1] 3).length = 3 :=
  (C5_resize_tables_count [0, 1] 3 (by decide) (by decide)).1

/-- C6: the finding-field extraction fails (raises) exactly when the
cell has no colon; otherwise the label is the trimmed text before the
first colon, truncated to its trailing 2 characters when longer than 2,
and the description is the trimmed text after the first colon; the two
worked examples of the specification hold. -/
theorem C6_extract_finding_fields_correct (s : List Char) :
    (extract_finding_fields s = none ↔ ':' ∉ s)
    ∧ (':' ∈ s →
        extract_finding_fields s
          = some
              ((fun a => if 2 < a.length then a.drop (a.length - 2) else a)
                  (pyStrip (s.take (List.indexOf ':' s))),
                pyStrip (s.drop (List.indexOf ':' s + 1))))
    ∧ extract_finding_fields ("a2: Corrosion observed on beam".toList)
        = some ("a2".toList, "Corrosion observed on beam".toList)
    ∧ extract_finding_fields
          ("Introductory remark then code f3: Observed crack".toList)
        = some ("f3".toList, "Observed crack".toList)
    ∧ extract_finding_fields ("Missing colon separator".toList) = none := by
  refine ⟨?_, ?_, by decide, by decide, by decide⟩
  · by_cases h : ':' ∈ s
    · simp [extract_finding_fields, h]
    · simp [extract_finding_fields, h]
  · intro h
    rw [extract_finding_fields, if_pos h]
    rw [takeWhile_ne_eq_take, dropWhile_ne_eq_drop, List.drop_drop]

theorem C6_witness :
    extract_finding_fields ("geen dubbele punt".toList) = none :=
  (C6_extract_finding_fields_correct ("geen dubbele punt".toList)).1.mpr
    (by decide)

/-- C8: the photo-token extension check rejects `.jpeg` although the
specification's allow-list is png/jpg/jpeg: the source compares the
splitext extension (which keeps its leading dot) against the literal
list `['.png', '.jpg', 'jpeg']`, whose dotless third entry can never
match, so a token with extension `.jpeg` raises the format error while
`.png` and `.jpg` tokens are accepted. -/
theorem C8_jpeg_extension_rejected :
    tokenExt ("9251.jpeg".toList) = (".jpeg".toList)
    ∧ (".jpeg".toList) ∉ allowedExts
    ∧ find_foto_path ("9251.jpeg".toList) [⟨"dscn9251.jpeg".toList, 5⟩]
        = .error (.badExt (".jpeg".toList))
    ∧ find_foto_path ("9251.jpg".toList) [⟨"dscn9251.jpg".toList, 5⟩]
        = .ok ⟨"dscn9251.jpg".toList, 5⟩
    ∧ find_foto_path ("9251.png".toList) [⟨"dscn9251.png".toList, 5⟩]
        = .ok ⟨"dscn9251.png".toList, 5⟩ := by
  refine ⟨by decide, by decide, rfl, rfl, rfl⟩

/-- C10: whatever `find_most_recent_file` returns is one of the walked
files and its filename ends with `.pdf` case-insensitively, so a file
matching the name pattern with any other extension is never returned. -/
theorem C10_find_most_recent_file_pdf_only (files : List WalkFile)
    (pat : List Char) (excl : Option (List Char)) (f : WalkFile)
    (h : find_most_recent_file files pat excl = some f) :
    endsWith (".pdf".toList) (toLowerL f.fname) = true
    ∧ (".pdf".toList) <:+ (toLowerL f.fname)
    ∧ f ∈ files := by
  unfold find_most_recent_file at h
  cases hF : files.filter (matchesSearch pat excl) with
  | nil => rw [hF] at h; exact absurd h (by simp)
  | cons x xs =>
    rw [hF] at h
    simp only [Option.some.injEq] at h
    subst h
    have hmem : maxByMtime x xs ∈ x :: xs := maxByMtime_mem x xs
    rw [← hF] at hmem
    have hms : matchesSearch pat excl (maxByMtime x xs) = true :=
      (List.mem_filter.mp hmem).2
    have hmem2 : maxByMtime x xs ∈ files := (List.mem_filter.mp hmem).1
    unfold matchesSearch at hms
    simp only [Bool.and_eq_true] at hms
    exact ⟨hms.1.2, (endsWith_iff _ _).mp hms.1.2, hmem2⟩

theorem C10_witness :
    endsWith (".pdf".toList) (toLowerL ("PI rapport 1.pdf".toList)) = true
    ∧ (".pdf".toList) <:+ (toLowerL ("PI rapport 1.pdf".toList))
    ∧ (⟨"PI rapport 1.pdf".toList, 5⟩ : WalkFile)
        ∈ [(⟨"PI rapport 1.pdf".toList, 5⟩ : WalkFile)] :=
  C10_find_most_recent_file_pdf_only [⟨"PI rapport 1.pdf".toList, 5⟩]
    ("pi rapport".toList) none ⟨"PI rapport 1.pdf".toList, 5⟩ (by decide)

/-- C2: `find_last_page_with_text` treats a page as matching exactly
when the search text is a case-insensitive substring of its extracted
text, returns `none` exactly when no page matches, otherwise the largest
0-based matching page index; a document with the anchor on pages 2 and 7
yields 7. -/
theorem C2_find_last_page_with_text_correct (pages : List (List Char))
    (s : List Char) :
    (∀ t, pageHit s t = true ↔ (toLowerL s) <:+: (toLowerL t))
    ∧ (find_last_page_with_text pages s = none ↔
        ∀ t ∈ pages, pageHit s t = false)
    ∧ (∀ i, find_last_page_with_text pages s = some i →
        i < pages.length ∧ pageHit s (pages.getD i []) = true ∧
          ∀ j, j < pages.length → pageHit s (pages.getD j []) = true → j ≤ i)
    ∧ find_last_page_with_text
        [[], [], ("zie Bijlage 3 hier".toList), [], [], [], [],
          ("BIJLAGE 3 nogmaals".toList)] ("bijlage 3".toList) = some 7 := by
  refine ⟨?_, ?_, ?_, by decide⟩
  · intro t
    unfold pageHit
    exact listContains_iff _ _
  · rw [find_last_eq_lastHitFrom]
    exact lastHitFrom_eq_none_iff s pages 0
  · intro i h
    rw [find_last_eq_lastHitFrom] at h
    obtain ⟨i0, hlen, hi0, hhit, hmax⟩ := lastHitFrom_eq_some s pages 0 i h
    have hii : i0 = i := by omega
    subst hii
    exact ⟨hlen, hhit, fun j hj hjh => hmax j hj hjh⟩

theorem C2_witness :
    7 < ([[], [], ("zie Bijlage 3 hier".toList), [], [], [], [],
        ("BIJLAGE 3 nogmaals".toList)] : List (List Char)).length
    ∧ pageHit ("bijlage 3".toList)
        (([[], [], ("zie Bijlage 3 hier".toList), [], [], [], [],
          ("BIJLAGE 3 nogmaals".toList)] : List (List Char)).getD 7 []) = true := by
  have h := (C2_find_last_page_with_text_correct
      [[], [], ("zie Bijlage 3 hier".toList), [], [], [], [],
        ("BIJLAGE 3 nogmaals".toList)] ("bijlage 3".toList)).2.2.1 7 (by decide)
  exact ⟨h.1, h.2.1⟩

/-- C1: for anchored appendix sets whose resolved anchor pages are
in range and pairwise distinct, the merged document has length primary
plus the sum of all appendix page counts, is a permutation of the
primary followed by all appendix pages (so nothing is duplicated or
dropped), keeps the primary pages in their original relative order, and
places every anchored appendix contiguously and completely between the
former page `P` and the former page `P + 1`, starting immediately after
the former page `P`. -/
theorem C1_build_merged_pdf_structure {α : Type} (pi : List α)
    (pts : List (Option Nat × List α))
    (hb : ∀ y ∈ insertions_with_pages pts, y.1 < pi.length)
    (hd : (insertions_with_pages pts).Pairwise (fun a b => a.1 ≠ b.1)) :
    (build_merged_pdf pi pts).length
        = pi.length + (pts.map (fun p => p.2.length)).sum
    ∧ (build_merged_pdf pi pts).Perm (pi ++ (pts.map Prod.snd).flatten)
    ∧ pi.Sublist (build_merged_pdf pi pts)
    ∧ ∀ p ∈ pts, ∀ n, p.1 = some n →
        ∃ A B, build_merged_pdf pi pts = A ++ p.2 ++ B
          ∧ (pi.take (n + 1)).Sublist A ∧ (pi.drop (n + 1)).Sublist B
          ∧ A.getLast? = pi[n]? := by
  have hSperm := sortDesc_perm (insertions_with_pages pts)
  have hperm : (build_merged_pdf pi pts).Perm (pi ++ (pts.map Prod.snd).flatten) := by
    rw [build_merged_pdf_eq]
    have h1 := mergeFold_perm (sortDesc (insertions_with_pages pts)) pi
    have h2 : (((sortDesc (insertions_with_pages pts)).map Prod.snd).flatten).Perm
        (((insertions_with_pages pts).map Prod.snd).flatten) :=
      (hSperm.map Prod.snd).flatten
    have step1 := h1.append_right ((insertions_without_pages pts).flatten)
    have step2 := (List.Perm.append_left pi h2).append_right
      ((insertions_without_pages pts).flatten)
    have step4 := List.Perm.append_left pi (flatten_partition_perm pts)
    have step5 : ((pi ++ ((insertions_with_pages pts).map Prod.snd).flatten)
          ++ (insertions_without_pages pts).flatten).Perm
        (pi ++ (pts.map Prod.snd).flatten) := by
      rw [List.append_assoc]
      exact step4
    exact step1.trans (step2.trans step5)
  refine ⟨?_, hperm, ?_, ?_⟩
  · have hl := hperm.length_eq
    simp only [List.length_append, List.length_flatten, List.map_map] at hl
    simpa [Function.comp] using hl
  · rw [build_merged_pdf_eq]
    exact (mergeFold_sublist _ pi).trans (List.sublist_append_left _ _)
  · intro p hp n hn
    have hmemW : (n, p.2) ∈ insertions_with_pages pts :=
      List.mem_filterMap.mpr ⟨p, hp, by rw [hn]; rfl⟩
    have hmemS : (n, p.2) ∈ sortDesc (insertions_with_pages pts) :=
      hSperm.mem_iff.mpr hmemW
    have hsymm : ∀ {x y : Nat × List α}, x.1 ≠ y.1 → y.1 ≠ x.1 :=
      fun h => Ne.symm h
    have hneS : (sortDesc (insertions_with_pages pts)).Pairwise
        (fun a b => a.1 ≠ b.1) := (hSperm.pairwise_iff hsymm).mpr hd
    have hbS : ∀ y ∈ sortDesc (insertions_with_pages pts), y.1 < pi.length :=
      fun y hy => hb y (hSperm.mem_iff.mp hy)
    obtain ⟨A, B, hAB, hA, hB, hlastA⟩ :=
      mergeFold_gap (sortDesc (insertions_with_pages pts)) pi
        (sortDesc_pairwise_ge _) hneS hbS n p.2 hmemS
    refine ⟨A, B ++ (insertions_without_pages pts).flatten, ?_, hA,
      hB.trans (List.sublist_append_left _ _), hlastA⟩
    rw [build_merged_pdf_eq, hAB]
    simp [List.append_assoc]

theorem C1_witness :
    (build_merged_pdf [0, 1, 2] [(some 0, [10]), (none, [20]), (some 2, [30])]).length
      = ([0, 1, 2] : List Nat).length
        + (([((some 0 : Option Nat), ([10] : List Nat)), (none, [20]),
            (some 2, [30])]).map (fun p => p.2.length)).sum :=
  (C1_build_merged_pdf_structure [0, 1, 2]
    [(some 0, [10]), (none, [20]), (some 2, [30])] (by decide) (by decide)).1

/-- C3 counterexample: two appendices that both resolve to anchor page 0
come out in reverse declared order, because the second is merged at the
same position and lands in front of the first, contradicting the claimed
declared-order tie-break. -/
theorem C3_counterexample_tie_order :
    build_merged_pdf [10, 11] [(some 0, [100]), (some 0, [200])]
      = [10, 200, 100, 11]
    ∧ ¬ ((build_merged_pdf [10, 11]
            [(some 0, [100]), (some 0, [200])]).indexOf 100
          < (build_merged_pdf [10, 11]
            [(some 0, [100]), (some 0, [200])]).indexOf 200) := by
  exact ⟨by decide, by decide⟩

/-- C3 (amended): inline insertions are performed in descending anchor
order before any end-append; every appendix without an anchor match is
appended after all original pages and all inline insertions, in declared
order; but two appendices resolving to the identical anchor page appear
in reverse declared order, each being merged at the same position. -/
theorem C3_insertion_order_amended {α : Type} :
    (∀ pts : List (Option Nat × List α),
        (sortDesc (insertions_with_pages pts)).Pairwise (fun a b => b.1 ≤ a.1))
    ∧ (∀ (pi : List α) (pts : List (Option Nat × List α)),
        ∃ W, build_merged_pdf pi pts = W ++ (insertions_without_pages pts).flatten
          ∧ pi.Sublist W
          ∧ W.length = pi.length
              + ((insertions_with_pages pts).map (fun x => x.2.length)).sum)
    ∧ (∀ (pi : List α) (n : Nat) (d1 d2 : List α), n < pi.length →
        build_merged_pdf pi [(some n, d1), (some n, d2)]
          = pi.take (n + 1) ++ d2 ++ d1 ++ pi.drop (n + 1)) := by
  refine ⟨?_, ?_, ?_⟩
  · intro pts
    exact sortDesc_pairwise_ge _
  · intro pi pts
    refine ⟨mergeFold pi (sortDesc (insertions_with_pages pts)),
      build_merged_pdf_eq pi pts, mergeFold_sublist _ pi, ?_⟩
    rw [mergeFold_length]
    congr 1
    exact List.Perm.sum_eq ((sortDesc_perm _).map _)
  · intro pi n d1 d2 hn
    have hW : insertions_with_pages [(some n, d1), (some n, d2)]
        = [(n, d1), (n, d2)] := rfl
    have hWO : insertions_without_pages [(some n, d1), (some n, d2)]
        = ([] : List (List α)) := rfl
    have hsort : sortDesc [(n, d1), (n, d2)] = [(n, d1), (n, d2)] := by
      simp [sortDesc, insertDesc]
    rw [build_merged_pdf_eq, hW, hWO, hsort]
    rw [mergeFold_cons_split pi n d1 [(n, d2)]
      (by intro y hy; simp at hy; rw [hy]) hn]
    have htlen : (pi.take (n + 1)).length = n + 1 := by
      rw [List.length_take]; omega
    have h1 : mergeFold (pi.take (n + 1)) [(n, d2)] = pi.take (n + 1) ++ d2 := by
      show insertAt (pi.take (n + 1)) (n + 1) d2 = _
      unfold insertAt
      rw [List.take_of_length_le (le_of_eq htlen),
        List.drop_of_length_le (le_of_eq htlen)]
      simp
    rw [h1]
    simp [List.append_assoc]

theorem C3_witness :
    build_merged_pdf [0, 1] [(some 0, [5]), (some 0, [6])]
      = ([0, 1] : List Nat).take 1 ++ [6] ++ [5] ++ ([0, 1] : List Nat).drop 1 :=
  (@C3_insertion_order_amended Nat).2.2 [0, 1] 0 [5] [6] (by decide)

/-- C7 counterexample: for token `9251` with candidates
`IMG_9251_full.jpg` and `IMG_9251_small.jpg` the claimed result is the
small file, but neither extension-stripped basename ends with `9251`
(both end in `_full` / `_small`), so the source raises its
not-found error instead of returning the 200KB file. -/
theorem C7_counterexample_suffix_mismatch :
    find_foto_path ("9251".toList)
        [⟨"IMG_9251_full.jpg".toList, 2000000⟩,
          ⟨"IMG_9251_small.jpg".toList, 200000⟩]
      = .error (.notFound ("9251".toList))
    ∧ find_foto_path ("9251".toList)
        [⟨"IMG_9251_full.jpg".toList, 2000000⟩,
          ⟨"IMG_9251_small.jpg".toList, 200000⟩]
      ≠ .ok ⟨"IMG_9251_small.jpg".toList, 200000⟩ := by
  have h1 : find_foto_path ("9251".toList)
      [⟨"IMG_9251_full.jpg".toList, 2000000⟩,
        ⟨"IMG_9251_small.jpg".toList, 200000⟩]
      = .error (.notFound ("9251".toList)) := rfl
  refine ⟨h1, ?_⟩
  rw [h1]
  intro hc
  exact Except.noConfusion hc

/-- C7 (amended): for a token whose extension passes the check, a
candidate matches exactly when its lower-cased, extension-stripped
basename ends with the normalized token; no match yields the not-found
error carrying the token stem; any returned candidate is a matching one
of minimal byte size. The worked example holds once its candidate names
are made to end with the token (`IMG_9251.jpg` at 2MB versus
`dscn9251.jpg` at 200KB returns the 200KB file). -/
theorem C7_find_foto_path_amended (t : List Char) (imgs : List ImgFile)
    (hext : tokenExt t = [] ∨ tokenExt t ∈ allowedExts) :
    (∀ img ∈ imgs, fotoMatches t img = true ↔
        (tokenStem t) <:+ toLowerL (splitext (basename img.fullname)).1)
    ∧ (imgs.filter (fotoMatches t) = [] →
        find_foto_path t imgs = .error (.notFound (tokenStem t)))
    ∧ (∀ img, find_foto_path t imgs = .ok img →
        img ∈ imgs.filter (fotoMatches t)
        ∧ ∀ o ∈ imgs.filter (fotoMatches t), img.size ≤ o.size)
    ∧ find_foto_path ("9251".toList)
        [⟨"IMG_9251.jpg".toList, 2000000⟩, ⟨"dscn9251.jpg".toList, 200000⟩]
      = .ok ⟨"dscn9251.jpg".toList, 200000⟩ := by
  have hcond : ¬(tokenExt t ≠ [] ∧ tokenExt t ∉ allowedExts) := by
    rcases hext with h | h <;> simp [h]
  refine ⟨?_, ?_, ?_, rfl⟩
  · intro img _
    unfold fotoMatches
    exact endsWith_iff _ _
  · intro hF
    unfold find_foto_path
    rw [if_neg hcond, hF]
  · intro img h
    unfold find_foto_path at h
    rw [if_neg hcond] at h
    cases hF : imgs.filter (fotoMatches t) with
    | nil => rw [hF] at h; exact absurd h (by simp)
    | cons x xs =>
      rw [hF] at h
      cases xs with
      | nil =>
        replace h : Except.ok x = Except.ok img := h
        injection h with h2
        subst h2
        refine ⟨by simp, ?_⟩
        intro o ho
        have : o = x := by simpa using ho
        rw [this]
      | cons y ys =>
        replace h : Except.ok (minBySize x (y :: ys)) = Except.ok img := h
        injection h with h2
        subst h2
        refine ⟨minBySize_mem x (y :: ys), ?_⟩
        intro o ho
        exact minBySize_le x (y :: ys) o ho

theorem C7_witness :
    find_foto_path ("9251".toList)
        [⟨"IMG_9251.jpg".toList, 2000000⟩, ⟨"dscn9251.jpg".toList, 200000⟩]
      = .ok ⟨"dscn9251.jpg".toList, 200000⟩ :=
  (C7_find_foto_path_amended ("9251".toList) [] (by decide)).2.2.2

/-- C9 counterexample: in the generate driver an exception from the
pre-`try` progress-parameter step for the first object terminates the
whole batch (the loop result is that error and the second object is
never processed), contradicting the claim that every per-object step in
both batch drivers is caught at the per-object boundary. -/
theorem C9_counterexample_generate_driver :
    generate_main_loop
        (fun o : Nat => if o = 0 then (Except.error () : Except Unit Unit)
          else .ok ())
        (fun _ _ => (.ok () : Except Unit Unit)) [0, 1]
      = .error ()
    ∧ ∀ fl : List Nat,
        generate_main_loop
            (fun o : Nat => if o = 0 then (Except.error () : Except Unit Unit)
              else .ok ())
            (fun _ _ => (.ok () : Except Unit Unit)) [0, 1]
          ≠ .ok fl := by
  have h1 : generate_main_loop
      (fun o : Nat => if o = 0 then (Except.error () : Except Unit Unit)
        else .ok ())
      (fun _ _ => (.ok () : Except Unit Unit)) [0, 1] = .error () := rfl
  refine ⟨h1, ?_⟩
  intro fl hc
  rw [h1] at hc
  exact Except.noConfusion hc

/-- C9 (amended): the combine driver's loop body is entirely inside its
`try`, so every object is classified as successful, skipped or failed
and the batch always runs to completion; in the generate driver the
`try` body's exceptions are likewise caught per object (when the
pre-`try` parameter lookups all succeed, the loop completes and returns
exactly the objects whose body failed), but an exception from the
pre-`try` progress-parameter step propagates and terminates the batch. -/
theorem C9_error_isolation_amended {Obj P E : Type}
    (process : Obj → Except E (Bool × Bool))
    (params : Obj → Except E P) (body : Obj → P → Except E Unit)
    (objs : List Obj) :
    ((combine_main_loop process objs).successful.length
        + (combine_main_loop process objs).skipped.length
        + (combine_main_loop process objs).failed.length = objs.length)
    ∧ (∀ o ∈ objs,
        o ∈ (combine_main_loop process objs).successful
        ∨ o ∈ (combine_main_loop process objs).skipped
        ∨ o ∈ (combine_main_loop process objs).failed)
    ∧ ((∀ o ∈ objs, (params o).isOk = true) →
        generate_main_loop params body objs
          = .ok (objs.filter (objFails params body)))
    ∧ (∀ (o : Obj) (rest : List Obj) (e : E), params o = .error e →
        generate_main_loop params body (o :: rest) = .error e) := by
  refine ⟨?_, ?_, ?_, ?_⟩
  · have h := combine_foldl_lengths process objs ⟨[], [], [], []⟩
    simpa [combine_main_loop] using h
  · intro o ho
    have h := combine_foldl_mem process objs ⟨[], [], [], []⟩ o ho
    simpa [combine_main_loop] using h
  · exact generate_loop_all_ok params body objs
  · intro o rest e he
    unfold generate_main_loop
    rw [he]

theorem C9_witness :
    generate_main_loop (fun _ : Nat => (Except.ok 0 : Except Unit Nat))
        (fun o _ => if o = 1 then (Except.error () : Except Unit Unit)
          else .ok ()) [0, 1, 2]
      = .ok [1] := by
  have h := (C9_error_isolation_amended
      (fun _ : Nat => (Except.ok (true, false) : Except Unit (Bool × Bool)))
      (fun _ : Nat => (Except.ok 0 : Except Unit Nat))
      (fun o _ => if o = 1 then (Except.error () : Except Unit Unit)
        else .ok ())
      [0, 1, 2]).2.2.1 (by decide)
  rw [h]
  rfl
